import Mathlib

/-!
Shallow embedding of the transfer engine of `file_mgmt4.py`
(dual-pane file manager): path enumeration (`_collect_all_files`),
chunked copying (`_copy_with_progress`), the copy/move orchestration
loops (`_copy_files`, `_move_files`) and the pane progress state
(`Pane._set_progress`, `Pane._reset_progress`).
-/

namespace FileMgmt

/-- An absolute path, as its list of components. -/
abbrev Path := List String

/-- File content as a list of bytes. -/
abbrev Bytes := List Nat

/-- A filesystem entry as seen by the enumerator: a regular file with
its content, or a directory with its children in listing order. -/
inductive FsEntry where
  | file : String → Bytes → FsEntry
  | dir : String → List FsEntry → FsEntry

/-- The regular files directly contained in a children list, in listing
order, as `(path, content)` rows rooted at `px` (the inner `for f in files`
of `os.walk`). -/
def fileRows (px : Path) : List FsEntry → List (Path × Bytes)
  | [] => []
  | .file n c :: cs => (px ++ [n], c) :: fileRows px cs
  | .dir _ _ :: cs => fileRows px cs

mutual
/-- `os.walk` over one entry: walking a file from its parent's recursion
yields nothing (only `dirs` are recursed into); walking a directory yields
its own files first, then the full walk of each subdirectory in order. -/
def walkEntry : Path → FsEntry → List (Path × Bytes)
  | _, .file _ _ => []
  | px, .dir n cs => fileRows (px ++ [n]) cs ++ walkEntries (px ++ [n]) cs

/-- `os.walk` recursion over a children list, in order. -/
def walkEntries : Path → List FsEntry → List (Path × Bytes)
  | _, [] => []
  | px, c :: cs => walkEntry px c ++ walkEntries px cs
end

/-- One selected item: the absolute path of its containing directory and
the entry itself (so the item's absolute path is `parent ++ [name]`). -/
structure Selected where
  parent : Path
  entry : FsEntry

/-- Name of a selected item's entry. -/
def FsEntry.name : FsEntry → String
  | .file n _ => n
  | .dir n _ => n

/-- Absolute path of a selected item. -/
def Selected.path (s : Selected) : Path := s.parent ++ [s.entry.name]

/-- `DualPaneFileManager._collect_all_files`: for each selected path, if
it is a file append it; if it is a directory, `os.walk` it. -/
def collectAllFiles (sel : List Selected) : List (Path × Bytes) :=
  sel.flatMap fun s =>
    match s.entry with
    | .file n c => [(s.parent ++ [n], c)]
    | .dir n cs => fileRows (s.parent ++ [n]) cs ++ walkEntries (s.parent ++ [n]) cs

/-- Last component of a path (`p.name` in `pathlib`); `""` for the root. -/
def baseName (p : Path) : String := p.getLast? |>.getD ""

/-- Whether a selected item is a directory (`files[0].is_dir()`). -/
def Selected.isDir (s : Selected) : Bool :=
  match s.entry with
  | .dir _ _ => true
  | .file _ _ => false

/-- The relative-path rule of `_copy_files` / `_move_files`:
`if len(files) == 1 and files[0].is_dir(): rel_path = p.relative_to(files[0].parent)
 else: rel_path = p.name`. `relative_to` of an ancestor drops its components. -/
def relPath (sel : List Selected) (p : Path) : Path :=
  match sel with
  | [s] =>
    match s.entry with
    | .dir _ _ => p.drop s.parent.length
    | .file _ _ => [baseName p]
  | _ => [baseName p]

/-- The enumerated plan with the relative path the orchestration loop
computes for each file: `(sourcePath, relativePath, content)` rows. -/
def planRel (sel : List Selected) : List (Path × Path × Bytes) :=
  (collectAllFiles sel).map fun pc => (pc.1, relPath sel pc.1, pc.2)

/-! ## Destination filesystem state

The state of the world the copy loop mutates: a partial map from absolute
paths to regular-file contents (directories are implicit). -/

/-- Filesystem state: which regular file, if any, lives at each path. -/
abbrev FS := Path → Option Bytes

/-- Writing a file (`open(dst_path, "wb")` then writing all chunks):
truncates whatever was there and leaves exactly the written bytes. -/
def FS.write (fs : FS) (p : Path) (c : Bytes) : FS :=
  fun q => if q = p then some c else fs q

/-- `p.unlink()`: the file at `p` is removed. -/
def FS.erase (fs : FS) (p : Path) : FS :=
  fun q => if q = p then none else fs q

/-! ## Pane progress state (`Pane._set_progress`, `Pane._reset_progress`)

The Python bar stores `progress["value"]` and `progress["maximum"]` as
floats; the arithmetic performed on them is exact, so we embed them as
rationals. -/

/-- The pane's progress pair: `progress["value"]` and `progress["maximum"]`. -/
structure ProgressState where
  value : ℚ
  maximum : ℚ
deriving DecidableEq, Repr

/-- `Pane._set_progress(value, maximum)`:
`maximum' = max(1, maximum)`; `value' = max(0, min(value, maximum'))`. -/
def setProgress (_st : ProgressState) (value maximum : ℚ) : ProgressState :=
  let m := max 1 maximum
  { maximum := m, value := max 0 (min value m) }

/-- `Pane._reset_progress()`: `_set_progress(0, self.progress["maximum"])`. -/
def resetProgress (st : ProgressState) : ProgressState :=
  setProgress st 0 st.maximum

/-- Apply a sequence of `_set_progress(value, maximum)` calls in order. -/
def applyCalls (st : ProgressState) : List (ℚ × ℚ) → ProgressState
  | [] => st
  | c :: cs => applyCalls (setProgress st c.1 c.2) cs

/-! ## Chunked copier (`_copy_with_progress`) -/

/-- `chunk_size = 1024 * 1024` (1 MiB). -/
def chunkSize : Nat := 1024 * 1024

/-- The successive buffers `src_f.read(chunk_size)` returns: maximal
`chunkSize`-byte slices of the content, until the read comes back empty. -/
def readChunks (content : Bytes) : List Bytes :=
  match content with
  | [] => []
  | b :: rest => (b :: rest).take chunkSize :: readChunks ((b :: rest).drop chunkSize)
termination_by content.length
decreasing_by
  simp only [chunkSize, List.length_drop, List.length_take, List.length_cons]
  omega

/-- One pass of the chunk loop: writes each buffer, advances `copied`, and
issues the per-chunk `_set_progress` call
(`(file_index - 1) + copied / total_size` of `total_files` when
`total_size > 0`, else `file_index - 0.5` of `total_files`). Returns the
bytes written, the final `copied`, and the calls issued. -/
def chunkLoop (fileIndex totalFiles totalSize : Nat) :
    List Bytes → Nat → Bytes × Nat × List (ℚ × ℚ)
  | [], copied => ([], copied, [])
  | buf :: bufs, copied =>
    let copied' := copied + buf.length
    let call : ℚ × ℚ :=
      if 0 < totalSize then
        ((fileIndex : ℚ) - 1 + (copied' : ℚ) / (totalSize : ℚ), (totalFiles : ℚ))
      else
        ((fileIndex : ℚ) - 1 / 2, (totalFiles : ℚ))
    let r := chunkLoop fileIndex totalFiles totalSize bufs copied'
    (buf ++ r.1, r.2.1, call :: r.2.2)

/-- Result of copying one file: the destination's final bytes and the
`_set_progress` calls made on the destination pane. -/
structure CopyRun where
  written : Bytes
  calls : List (ℚ × ℚ)
deriving DecidableEq, Repr

/-- `_copy_with_progress(src, dst, pane, file_index, total_files)` on a
readable source of the given content: `total_size = os.path.getsize(src)`,
then the chunk loop, then best-effort `copystat` (no observable state here),
then the final `pane._set_progress(file_index, total_files)`. -/
def copyWithProgress (content : Bytes) (fileIndex totalFiles : Nat) : CopyRun :=
  let totalSize := content.length
  let r := chunkLoop fileIndex totalFiles totalSize (readChunks content) 0
  { written := r.1, calls := r.2.2 ++ [((fileIndex : ℚ), (totalFiles : ℚ))] }

/-! ## Orchestration (`_copy_files`, `_move_files`)

The loops are embedded over a destination/source filesystem state and a
fault model: a copy of `src` fails (the `open` inside
`_copy_with_progress` raises, which is uncaught in the loops) exactly when
`fs src = none`; `p.unlink()` fails (caught, dialog shown, loop continues)
exactly when `unlinkOk p = false`. -/

/-- Observable per-file events of a loop run. -/
inductive TEvent where
  | copied (src dst : Path)
  | removed (src : Path)
  | removeFailed (src : Path)
deriving DecidableEq, Repr

/-- Result of one orchestration loop. -/
structure LoopResult where
  fs : FS
  events : List TEvent
  calls : List (ℚ × ℚ)
  abortedAt : Option Path

/-- The `for i, p in enumerate(all_files, start=1)` loop of `_copy_files`:
each entry is copied with progress; an I/O failure (missing source) raises
out of the loop, so later entries are not reached. -/
def copyLoop (n : Nat) (fs : FS) : Nat → List (Path × Path) → LoopResult
  | _, [] => ⟨fs, [], [], none⟩
  | i, (src, dst) :: rest =>
    match fs src with
    | none => ⟨fs, [], [], some src⟩
    | some c =>
      let r := copyWithProgress c i n
      let k := copyLoop n (fs.write dst r.written) (i + 1) rest
      ⟨k.fs, .copied src dst :: k.events, r.calls ++ k.calls, k.abortedAt⟩

/-- The loop of `_move_files`: copy with progress, then
`try: p.unlink() except: messagebox.showerror(...)` — a deletion failure
is reported and the loop continues; a copy failure raises out. -/
def moveLoop (unlinkOk : Path → Bool) (n : Nat) (fs : FS) :
    Nat → List (Path × Path) → LoopResult
  | _, [] => ⟨fs, [], [], none⟩
  | i, (src, dst) :: rest =>
    match fs src with
    | none => ⟨fs, [], [], some src⟩
    | some c =>
      let r := copyWithProgress c i n
      let fs1 := (fs.write dst r.written)
      if unlinkOk src then
        let k := moveLoop unlinkOk n (fs1.erase src) (i + 1) rest
        ⟨k.fs, .copied src dst :: .removed src :: k.events,
          r.calls ++ k.calls, k.abortedAt⟩
      else
        let k := moveLoop unlinkOk n fs1 (i + 1) rest
        ⟨k.fs, .copied src dst :: .removeFailed src :: k.events,
          r.calls ++ k.calls, k.abortedAt⟩

/-- Result of a whole `_copy_files` / `_move_files` invocation. -/
structure TransferResult where
  fs : FS
  rejected : Bool
  events : List TEvent
  calls : List (ℚ × ℚ)
  abortedAt : Option Path

/-- The `(sourcePath, destinationPath)` pairs the loops process:
`target = dst.directory / rel_path` for each enumerated file. -/
def transferPlan (sel : List Selected) (droot : Path) : List (Path × Path) :=
  (collectAllFiles sel).map fun pc => (pc.1, droot ++ relPath sel pc.1)

/-- `_copy_files(src, dst)`: if the selection is empty or the destination
pane has no directory, show an info dialog and return (no work). Otherwise
enumerate, `dst._set_progress(0, len(all_files))`, and run the copy loop;
destination paths are `dst.directory / rel_path`. -/
def copyFiles (sel : List Selected) (dstDir : Option Path) (fs : FS) :
    TransferResult :=
  match dstDir with
  | none => ⟨fs, true, [], [], none⟩
  | some droot =>
    if sel.isEmpty then ⟨fs, true, [], [], none⟩
    else
      let n := (collectAllFiles sel).length
      let r := copyLoop n fs 1 (transferPlan sel droot)
      ⟨r.fs, false, r.events, (0, (n : ℚ)) :: r.calls, r.abortedAt⟩

/-- `_move_files(src, dst)`: same precondition and plan as `_copy_files`,
with the move loop. -/
def moveFiles (unlinkOk : Path → Bool) (sel : List Selected)
    (dstDir : Option Path) (fs : FS) : TransferResult :=
  match dstDir with
  | none => ⟨fs, true, [], [], none⟩
  | some droot =>
    if sel.isEmpty then ⟨fs, true, [], [], none⟩
    else
      let n := (collectAllFiles sel).length
      let r := moveLoop unlinkOk n fs 1 (transferPlan sel droot)
      ⟨r.fs, false, r.events, (0, (n : ℚ)) :: r.calls, r.abortedAt⟩

/-- The destination pane's progress state after a transfer: the calls of
the run applied in order, then `dst._reset_progress()` — which is reached
only when the loop was neither rejected nor aborted by an exception. -/
def transferProgress (st0 : ProgressState) (tr : TransferResult) :
    ProgressState :=
  let st1 := applyCalls st0 tr.calls
  if tr.rejected || tr.abortedAt.isSome then st1 else resetProgress st1

/-- Count of fully copied files in a run's events. -/
def countCopied (evs : List TEvent) : Nat :=
  evs.countP fun e => match e with | .copied _ _ => true | _ => false

/-- Count of source files successfully removed (Move). -/
def countRemoved (evs : List TEvent) : Nat :=
  evs.countP fun e => match e with | .removed _ => true | _ => false

/-- Count of `unlink` failures reported by the Move dialog. -/
def countRemoveFailed (evs : List TEvent) : Nat :=
  evs.countP fun e => match e with | .removeFailed _ => true | _ => false

/-- Specification-side reachability: the regular files contained in an
entry's subtree, with their path relative to the entry's parent. -/
inductive ReachesFile : FsEntry → Path → Bytes → Prop where
  | file (n : String) (c : Bytes) : ReachesFile (.file n c) [n] c
  | dir (n : String) {cs : List FsEntry} {e : FsEntry} {rel : Path}
      {c : Bytes} : e ∈ cs → ReachesFile e rel c →
      ReachesFile (.dir n cs) (n :: rel) c

/-! ## Concrete states used by the concrete runs below -/

/-- A source file `[1, 2]` and a destination that already holds `[9]`. -/
def fsW10 : FS := fun q =>
  if q = ["s", "a"] then some [1, 2]
  else if q = ["d", "a"] then some [9] else none

/-- Of the two planned sources only `s/b` exists, so the copy of `s/a`
raises. -/
def fsC1 : FS := fun q => if q = ["s", "b"] then some [5] else none

def fsC1w : FS := fun q => if q = ["s", "a"] then some [] else none

/-- Two plain files are selected, but `s/a` is deleted between enumeration
and its copy turn. -/
def selC5 : List Selected := [⟨["s"], .file "a" [1]⟩, ⟨["s"], .file "b" [2]⟩]

def fsC5 : FS := fun q => if q = ["s", "b"] then some [2] else none

/-- A one-file selection (`s/a`, empty content). -/
def selW : List Selected := [⟨["s"], .file "a" []⟩]

def fsW : FS := fun q => if q = ["s", "a"] then some [] else none

/-- A two-plain-file selection. -/
def selW4 : List Selected :=
  [⟨["r"], .file "f" [7]⟩, ⟨["r"], .file "g" [8]⟩]

/-! ## Helper lemmas -/

theorem FS.write_self (fs : FS) (p : Path) (c : Bytes) :
    fs.write p c p = some c := by
  simp [FS.write]

theorem FS.write_other (fs : FS) (p : Path) (c : Bytes) {q : Path}
    (h : q ≠ p) : fs.write p c q = fs q := by
  simp [FS.write, h]

theorem FS.erase_self (fs : FS) (p : Path) : fs.erase p p = none := by
  simp [FS.erase]

theorem FS.erase_other (fs : FS) (p : Path) {q : Path} (h : q ≠ p) :
    fs.erase p q = fs q := by
  simp [FS.erase, h]

theorem chunkLoop_written (i n t : Nat) (bufs : List Bytes) (copied : Nat) :
    (chunkLoop i n t bufs copied).1 = bufs.flatten := by
  induction bufs generalizing copied with
  | nil => rfl
  | cons b bs ih => simp [chunkLoop, ih]

theorem readChunks_flatten (c : Bytes) : (readChunks c).flatten = c := by
  have H : ∀ (n : Nat) (c : Bytes), c.length ≤ n →
      (readChunks c).flatten = c := by
    intro n
    induction n with
    | zero =>
      intro c hc
      match c with
      | [] => rw [readChunks]; rfl
      | b :: rest => simp at hc
    | succ n ih =>
      intro c hc
      match c with
      | [] => rw [readChunks]; rfl
      | b :: rest =>
        rw [readChunks]
        have hlt : ((b :: rest).drop chunkSize).length ≤ n := by
          simp only [chunkSize, List.length_drop, List.length_cons]
          simp only [List.length_cons] at hc
          omega
        rw [List.flatten_cons, ih _ hlt, List.take_append_drop]
  exact H c.length c le_rfl

/-- The chunk loop writes back exactly the source's bytes. -/
theorem copyWithProgress_written (c : Bytes) (i n : Nat) :
    (copyWithProgress c i n).written = c := by
  rw [copyWithProgress, chunkLoop_written, readChunks_flatten]

/-- Copying a zero-length file makes no per-chunk call, so the only
`_set_progress` call is the final `(file_index, total_files)` one, and
nothing is written. -/
theorem copyWithProgress_nil (i n : Nat) :
    copyWithProgress [] i n = ⟨[], [((i : ℚ), (n : ℚ))]⟩ := by
  rw [copyWithProgress, readChunks]
  rfl

theorem chunkLoop_calls_snd (i n t : Nat) (bufs : List Bytes)
    (copied : Nat) :
    ∀ call ∈ (chunkLoop i n t bufs copied).2.2, call.2 = (n : ℚ) := by
  induction bufs generalizing copied with
  | nil => simp [chunkLoop]
  | cons b bs ih =>
    simp only [chunkLoop, List.mem_cons]
    intro call hc
    rcases hc with hc | hc
    · subst hc; split <;> rfl
    · exact ih _ call hc

theorem copyWithProgress_calls_snd (c : Bytes) (i n : Nat) :
    ∀ call ∈ (copyWithProgress c i n).calls, call.2 = (n : ℚ) := by
  intro call hc
  rw [copyWithProgress] at hc
  rcases List.mem_append.1 hc with hc | hc
  · exact chunkLoop_calls_snd i n _ _ 0 call hc
  · simp at hc; simp [hc]

theorem applyCalls_nil (st : ProgressState) : applyCalls st [] = st := rfl

theorem applyCalls_cons (st : ProgressState) (c : ℚ × ℚ)
    (cs : List (ℚ × ℚ)) :
    applyCalls st (c :: cs) = applyCalls (setProgress st c.1 c.2) cs := rfl

/-- If every call in a non-empty sequence carries the same `maximum`
argument `m`, the stored maximum afterwards is `max 1 m`. -/
theorem applyCalls_maximum (st : ProgressState) (calls : List (ℚ × ℚ))
    (m : ℚ) (h : ∀ c ∈ calls, c.2 = m) (hne : calls ≠ []) :
    (applyCalls st calls).maximum = max 1 m := by
  induction calls generalizing st with
  | nil => exact absurd rfl hne
  | cons c cs ih =>
    rw [applyCalls_cons]
    cases cs with
    | nil =>
      rw [applyCalls_nil]
      have := h c (by simp)
      simp [setProgress, this]
    | cons c' cs' =>
      exact ih (setProgress st c.1 c.2) (fun d hd => h d (by simp [hd]))
        (by simp)

theorem copyLoop_nil (n : Nat) (fs : FS) (i : Nat) :
    copyLoop n fs i [] = ⟨fs, [], [], none⟩ := rfl

theorem copyLoop_cons_fail (n : Nat) (fs : FS) (i : Nat) (src dst : Path)
    (rest : List (Path × Path)) (h : fs src = none) :
    copyLoop n fs i ((src, dst) :: rest) = ⟨fs, [], [], some src⟩ := by
  rw [copyLoop, h]

theorem copyLoop_cons_ok (n : Nat) (fs : FS) (i : Nat) (src dst : Path)
    (rest : List (Path × Path)) (c : Bytes) (h : fs src = some c) :
    copyLoop n fs i ((src, dst) :: rest) =
      ⟨(copyLoop n (fs.write dst (copyWithProgress c i n).written)
          (i + 1) rest).fs,
       .copied src dst ::
         (copyLoop n (fs.write dst (copyWithProgress c i n).written)
           (i + 1) rest).events,
       (copyWithProgress c i n).calls ++
         (copyLoop n (fs.write dst (copyWithProgress c i n).written)
           (i + 1) rest).calls,
       (copyLoop n (fs.write dst (copyWithProgress c i n).written)
         (i + 1) rest).abortedAt⟩ := by
  rw [copyLoop, h]

theorem moveLoop_nil (uk : Path → Bool) (n : Nat) (fs : FS) (i : Nat) :
    moveLoop uk n fs i [] = ⟨fs, [], [], none⟩ := rfl

theorem moveLoop_cons_fail (uk : Path → Bool) (n : Nat) (fs : FS) (i : Nat)
    (src dst : Path) (rest : List (Path × Path)) (h : fs src = none) :
    moveLoop uk n fs i ((src, dst) :: rest) = ⟨fs, [], [], some src⟩ := by
  rw [moveLoop, h]

theorem moveLoop_cons_unlink (uk : Path → Bool) (n : Nat) (fs : FS)
    (i : Nat) (src dst : Path) (rest : List (Path × Path)) (c : Bytes)
    (h : fs src = some c) (huk : uk src = true) :
    moveLoop uk n fs i ((src, dst) :: rest) =
      ⟨(moveLoop uk n ((fs.write dst (copyWithProgress c i n).written).erase
          src) (i + 1) rest).fs,
       .copied src dst :: .removed src ::
         (moveLoop uk n ((fs.write dst
           (copyWithProgress c i n).written).erase src) (i + 1) rest).events,
       (copyWithProgress c i n).calls ++
         (moveLoop uk n ((fs.write dst
           (copyWithProgress c i n).written).erase src) (i + 1) rest).calls,
       (moveLoop uk n ((fs.write dst
         (copyWithProgress c i n).written).erase src) (i + 1)
         rest).abortedAt⟩ := by
  rw [moveLoop, h, huk]
  rfl

theorem moveLoop_cons_nounlink (uk : Path → Bool) (n : Nat) (fs : FS)
    (i : Nat) (src dst : Path) (rest : List (Path × Path)) (c : Bytes)
    (h : fs src = some c) (huk : uk src = false) :
    moveLoop uk n fs i ((src, dst) :: rest) =
      ⟨(moveLoop uk n (fs.write dst (copyWithProgress c i n).written)
          (i + 1) rest).fs,
       .copied src dst :: .removeFailed src ::
         (moveLoop uk n (fs.write dst (copyWithProgress c i n).written)
           (i + 1) rest).events,
       (copyWithProgress c i n).calls ++
         (moveLoop uk n (fs.write dst (copyWithProgress c i n).written)
           (i + 1) rest).calls,
       (moveLoop uk n (fs.write dst (copyWithProgress c i n).written)
         (i + 1) rest).abortedAt⟩ := by
  rw [moveLoop, h, huk]
  rfl

theorem copyLoop_calls_snd (n : Nat) (plan : List (Path × Path)) :
    ∀ (fs : FS) (i : Nat), ∀ call ∈ (copyLoop n fs i plan).calls,
    call.2 = (n : ℚ) := by
  induction plan with
  | nil => intro fs i call hc; simp [copyLoop_nil] at hc
  | cons e rest ih =>
    intro fs i call hc
    obtain ⟨src, dst⟩ := e
    match hsrc : fs src with
    | none => rw [copyLoop_cons_fail n fs i src dst rest hsrc] at hc; simp at hc
    | some c =>
      rw [copyLoop_cons_ok n fs i src dst rest c hsrc] at hc
      simp only [List.mem_append] at hc
      rcases hc with hc | hc
      · exact copyWithProgress_calls_snd c i n call hc
      · exact ih _ _ call hc

theorem moveLoop_calls_snd (uk : Path → Bool) (n : Nat)
    (plan : List (Path × Path)) :
    ∀ (fs : FS) (i : Nat), ∀ call ∈ (moveLoop uk n fs i plan).calls,
    call.2 = (n : ℚ) := by
  induction plan with
  | nil => intro fs i call hc; simp [moveLoop_nil] at hc
  | cons e rest ih =>
    intro fs i call hc
    obtain ⟨src, dst⟩ := e
    match hsrc : fs src with
    | none =>
      rw [moveLoop_cons_fail uk n fs i src dst rest hsrc] at hc
      simp at hc
    | some c =>
      cases huk : uk src with
      | true =>
        rw [moveLoop_cons_unlink uk n fs i src dst rest c hsrc huk] at hc
        simp only [List.mem_append] at hc
        rcases hc with hc | hc
        · exact copyWithProgress_calls_snd c i n call hc
        · exact ih _ _ call hc
      | false =>
        rw [moveLoop_cons_nounlink uk n fs i src dst rest c hsrc huk] at hc
        simp only [List.mem_append] at hc
        rcases hc with hc | hc
        · exact copyWithProgress_calls_snd c i n call hc
        · exact ih _ _ call hc

theorem copyLoop_count (n : Nat) (plan : List (Path × Path)) :
    ∀ (fs : FS) (i : Nat), (copyLoop n fs i plan).abortedAt = none →
    countCopied (copyLoop n fs i plan).events = plan.length := by
  induction plan with
  | nil => intro fs i _; rfl
  | cons e rest ih =>
    intro fs i hab
    obtain ⟨src, dst⟩ := e
    match hsrc : fs src with
    | none => rw [copyLoop_cons_fail n fs i src dst rest hsrc] at hab; simp at hab
    | some c =>
      rw [copyLoop_cons_ok n fs i src dst rest c hsrc] at hab ⊢
      simp only [countCopied, List.countP_cons] at ih ⊢
      rw [ih _ _ hab]
      simp

theorem moveLoop_count (uk : Path → Bool) (n : Nat)
    (plan : List (Path × Path)) :
    ∀ (fs : FS) (i : Nat), (moveLoop uk n fs i plan).abortedAt = none →
    countRemoved (moveLoop uk n fs i plan).events +
      countRemoveFailed (moveLoop uk n fs i plan).events = plan.length := by
  induction plan with
  | nil => intro fs i _; rfl
  | cons e rest ih =>
    intro fs i hab
    obtain ⟨src, dst⟩ := e
    match hsrc : fs src with
    | none =>
      rw [moveLoop_cons_fail uk n fs i src dst rest hsrc] at hab
      simp at hab
    | some c =>
      cases huk : uk src with
      | true =>
        rw [moveLoop_cons_unlink uk n fs i src dst rest c hsrc huk] at hab ⊢
        have := ih _ _ hab
        simp only [countRemoved, countRemoveFailed] at this ⊢
        simp [List.countP_cons]
        omega
      | false =>
        rw [moveLoop_cons_nounlink uk n fs i src dst rest c hsrc huk] at hab ⊢
        have := ih _ _ hab
        simp only [countRemoved, countRemoveFailed] at this ⊢
        simp [List.countP_cons]
        omega

/-- A path that is neither a source nor a destination of any plan entry is
untouched by the move loop. -/
theorem moveLoop_preserves (uk : Path → Bool) (n : Nat)
    (plan : List (Path × Path)) :
    ∀ (fs : FS) (i : Nat) (p : Path),
    (∀ e ∈ plan, e.1 ≠ p) → (∀ e ∈ plan, e.2 ≠ p) →
    (moveLoop uk n fs i plan).fs p = fs p := by
  induction plan with
  | nil => intro fs i p _ _; rfl
  | cons e rest ih =>
    intro fs i p hs hd
    obtain ⟨src, dst⟩ := e
    have hps : p ≠ src := fun h => hs (src, dst) (by simp) (by simp [h])
    have hpd : p ≠ dst := fun h => hd (src, dst) (by simp) (by simp [h])
    match hsrc : fs src with
    | none => rw [moveLoop_cons_fail uk n fs i src dst rest hsrc]
    | some c =>
      cases huk : uk src with
      | true =>
        rw [moveLoop_cons_unlink uk n fs i src dst rest c hsrc huk]
        rw [ih _ _ p (fun e he => hs e (by simp [he]))
          (fun e he => hd e (by simp [he]))]
        rw [FS.erase_other _ _ hps, FS.write_other _ _ _ hpd]
      | false =>
        rw [moveLoop_cons_nounlink uk n fs i src dst rest c hsrc huk]
        rw [ih _ _ p (fun e he => hs e (by simp [he]))
          (fun e he => hd e (by simp [he]))]
        rw [FS.write_other _ _ _ hpd]

/-- A `removed` event names a source path of the plan. -/
theorem moveLoop_removed_mem (uk : Path → Bool) (n : Nat)
    (plan : List (Path × Path)) :
    ∀ (fs : FS) (i : Nat) (p : Path),
    TEvent.removed p ∈ (moveLoop uk n fs i plan).events →
    p ∈ plan.map Prod.fst := by
  induction plan with
  | nil => intro fs i p h; simp [moveLoop_nil] at h
  | cons e rest ih =>
    intro fs i p h
    obtain ⟨src, dst⟩ := e
    match hsrc : fs src with
    | none =>
      rw [moveLoop_cons_fail uk n fs i src dst rest hsrc] at h
      simp at h
    | some c =>
      cases huk : uk src with
      | true =>
        rw [moveLoop_cons_unlink uk n fs i src dst rest c hsrc huk] at h
        simp only [List.mem_cons] at h
        rcases h with h | h | h
        · simp at h
        · simp at h; simp [h]
        · simp only [List.map_cons, List.mem_cons]
          exact Or.inr (ih _ _ p h)
      | false =>
        rw [moveLoop_cons_nounlink uk n fs i src dst rest c hsrc huk] at h
        simp only [List.mem_cons] at h
        rcases h with h | h | h
        · simp at h
        · simp at h
        · simp only [List.map_cons, List.mem_cons]
          exact Or.inr (ih _ _ p h)

theorem fileRows_nil (px : Path) : fileRows px [] = [] := rfl

theorem fileRows_file (px : Path) (n : String) (c : Bytes)
    (cs : List FsEntry) :
    fileRows px (.file n c :: cs) = (px ++ [n], c) :: fileRows px cs := rfl

theorem fileRows_dir (px : Path) (n : String) (cs' cs : List FsEntry) :
    fileRows px (.dir n cs' :: cs) = fileRows px cs := rfl

theorem walkEntry_file (px : Path) (n : String) (c : Bytes) :
    walkEntry px (.file n c) = [] := rfl

theorem walkEntry_dir (px : Path) (n : String) (cs : List FsEntry) :
    walkEntry px (.dir n cs) =
      fileRows (px ++ [n]) cs ++ walkEntries (px ++ [n]) cs := rfl

theorem walkEntries_nil (px : Path) : walkEntries px [] = [] := rfl

theorem walkEntries_cons (px : Path) (e : FsEntry) (cs : List FsEntry) :
    walkEntries px (e :: cs) = walkEntry px e ++ walkEntries px cs := rfl

mutual
/-- Walking a directory yields exactly the regular files its subtree
reaches, at paths extending the walk root by the relative path. -/
theorem walkEntry_dir_iff (px : Path) (m : String) (cs : List FsEntry)
    (p : Path) (c : Bytes) :
    (p, c) ∈ walkEntry px (.dir m cs) ↔
      ∃ rel, ReachesFile (.dir m cs) rel c ∧ p = px ++ rel := by
  rw [walkEntry_dir]
  have h := dirContents_iff (px ++ [m]) cs p c
  constructor
  · intro hm
    obtain ⟨e, he, rel, hrf, hp⟩ := h.1 hm
    exact ⟨m :: rel, ReachesFile.dir m he hrf, by simp [hp]⟩
  · rintro ⟨rel, hrf, hp⟩
    cases hrf with
    | dir _ he hrf' => exact h.2 ⟨_, he, _, hrf', by simp [hp]⟩
termination_by sizeOf cs + 1

/-- The files of a directory level plus the walks of its subdirectories
are exactly the files reached by some child. -/
theorem dirContents_iff (px : Path) (cs : List FsEntry) (p : Path)
    (c : Bytes) :
    (p, c) ∈ fileRows px cs ++ walkEntries px cs ↔
      ∃ e ∈ cs, ∃ rel, ReachesFile e rel c ∧ p = px ++ rel := by
  match cs with
  | [] => simp [fileRows_nil, walkEntries_nil]
  | .file n d :: cs' =>
    rw [fileRows_file, walkEntries_cons, walkEntry_file]
    have ih := dirContents_iff px cs' p c
    simp only [List.cons_append, List.nil_append, List.mem_cons,
      List.mem_append] at ih ⊢
    constructor
    · intro hm
      rcases hm with hm | hm
      · obtain ⟨hp, hc⟩ := Prod.mk.injEq .. ▸ hm
        refine ⟨.file n d, Or.inl rfl, [n], ?_, hp⟩
        rw [hc]
        exact ReachesFile.file n d
      · obtain ⟨e, he, rel, hrf, hp⟩ := ih.1 hm
        exact ⟨e, Or.inr he, rel, hrf, hp⟩
    · rintro ⟨e, he, rel, hrf, hp⟩
      rcases he with he | he
      · subst he
        cases hrf
        exact Or.inl (by rw [hp])
      · exact Or.inr (ih.2 ⟨e, he, rel, hrf, hp⟩)
  | .dir m cs'' :: cs' =>
    rw [fileRows_dir, walkEntries_cons]
    have ihd := walkEntry_dir_iff px m cs'' p c
    have ih := dirContents_iff px cs' p c
    simp only [List.mem_cons, List.mem_append] at ih ihd ⊢
    constructor
    · intro hm
      rcases hm with hm | hm | hm
      · obtain ⟨e, he, rel, hrf, hp⟩ := ih.1 (Or.inl hm)
        exact ⟨e, Or.inr he, rel, hrf, hp⟩
      · obtain ⟨rel, hrf, hp⟩ := ihd.1 hm
        exact ⟨.dir m cs'', Or.inl rfl, rel, hrf, hp⟩
      · obtain ⟨e, he, rel, hrf, hp⟩ := ih.1 (Or.inr hm)
        exact ⟨e, Or.inr he, rel, hrf, hp⟩
    · rintro ⟨e, he, rel, hrf, hp⟩
      rcases he with he | he
      · subst he
        exact Or.inr (Or.inl (ihd.2 ⟨rel, hrf, hp⟩))
      · rcases ih.2 ⟨e, he, rel, hrf, hp⟩ with hm | hm
        · exact Or.inl hm
        · exact Or.inr (Or.inr hm)
termination_by sizeOf cs
end

theorem collectAllFiles_nil : collectAllFiles [] = [] := rfl

theorem collectAllFiles_cons_file (par : Path) (n : String) (c : Bytes)
    (sel : List Selected) :
    collectAllFiles (⟨par, .file n c⟩ :: sel) =
      (par ++ [n], c) :: collectAllFiles sel := rfl

theorem collectAllFiles_cons_dir (par : Path) (n : String)
    (cs : List FsEntry) (sel : List Selected) :
    collectAllFiles (⟨par, .dir n cs⟩ :: sel) =
      walkEntry par (.dir n cs) ++ collectAllFiles sel := rfl

/-- `_collect_all_files` enumerates exactly the regular files reachable
under the selected items. -/
theorem collectAllFiles_mem_iff (sel : List Selected) (p : Path)
    (c : Bytes) :
    (p, c) ∈ collectAllFiles sel ↔
      ∃ s ∈ sel, ∃ rel, ReachesFile s.entry rel c ∧ p = s.parent ++ rel := by
  induction sel with
  | nil => simp [collectAllFiles_nil]
  | cons s sel' ih =>
    obtain ⟨par, e⟩ := s
    cases e with
    | file n d =>
      rw [collectAllFiles_cons_file]
      simp only [List.mem_cons] at ih ⊢
      constructor
      · intro hm
        rcases hm with hm | hm
        · obtain ⟨hp, hc⟩ := Prod.mk.injEq .. ▸ hm
          refine ⟨⟨par, .file n d⟩, Or.inl rfl, [n], ?_, hp⟩
          rw [hc]
          exact ReachesFile.file n d
        · obtain ⟨s, hs, rel, hrf, hp⟩ := ih.1 hm
          exact ⟨s, Or.inr hs, rel, hrf, hp⟩
      · rintro ⟨s, hs, rel, hrf, hp⟩
        rcases hs with hs | hs
        · subst hs
          cases hrf
          exact Or.inl (by rw [hp])
        · exact Or.inr (ih.2 ⟨s, hs, rel, hrf, hp⟩)
    | dir m cs =>
      rw [collectAllFiles_cons_dir]
      have ihd := walkEntry_dir_iff par m cs p c
      simp only [List.mem_cons, List.mem_append] at ih ⊢
      constructor
      · intro hm
        rcases hm with hm | hm
        · obtain ⟨rel, hrf, hp⟩ := ihd.1 hm
          exact ⟨⟨par, .dir m cs⟩, Or.inl rfl, rel, hrf, hp⟩
        · obtain ⟨s, hs, rel, hrf, hp⟩ := ih.1 hm
          exact ⟨s, Or.inr hs, rel, hrf, hp⟩
      · rintro ⟨s, hs, rel, hrf, hp⟩
        rcases hs with hs | hs
        · subst hs
          exact Or.inl (ihd.2 ⟨rel, hrf, hp⟩)
        · exact Or.inr (ih.2 ⟨s, hs, rel, hrf, hp⟩)

/-- A selection of plain files enumerates one row per selected file, the
file itself. -/
theorem collectAllFiles_flat (sel : List Selected)
    (h : ∀ s ∈ sel, s.isDir = false) :
    (collectAllFiles sel).length = sel.length ∧
    ∀ pc ∈ collectAllFiles sel, ∃ s ∈ sel, pc.1 = s.parent ++ [s.entry.name] := by
  induction sel with
  | nil => simp [collectAllFiles_nil]
  | cons s sel' ih =>
    obtain ⟨par, e⟩ := s
    cases e with
    | file n d =>
      rw [collectAllFiles_cons_file]
      obtain ⟨ihl, ihm⟩ := ih fun t ht => h t (by simp [ht])
      refine ⟨by simp [ihl], ?_⟩
      intro pc hpc
      rcases List.mem_cons.1 hpc with hpc | hpc
      · exact ⟨⟨par, .file n d⟩, by simp, by simp [hpc, FsEntry.name]⟩
      · obtain ⟨s, hs, hp⟩ := ihm pc hpc
        exact ⟨s, by simp [hs], hp⟩
    | dir m cs =>
      exact absurd (h ⟨par, .dir m cs⟩ (by simp)) (by simp [Selected.isDir])

/-- When no selected item is a directory (or when several items are
selected), the relative path is just the base name. -/
theorem relPath_flat (sel : List Selected)
    (h : (∀ s ∈ sel, s.isDir = false) ∨ 2 ≤ sel.length) (p : Path) :
    relPath sel p = [baseName p] := by
  match sel with
  | [] => rfl
  | [s] =>
    obtain ⟨par, e⟩ := s
    cases e with
    | file n d => rfl
    | dir m cs =>
      rcases h with h | h
      · exact absurd (h ⟨par, .dir m cs⟩ (by simp)) (by simp [Selected.isDir])
      · simp at h
  | s :: s' :: rest => rfl

theorem baseName_append (par : Path) (n : String) :
    baseName (par ++ [n]) = n := by
  simp [baseName]

theorem planRel_length (sel : List Selected) :
    (planRel sel).length = (collectAllFiles sel).length := by
  simp [planRel]

theorem transferPlan_length (sel : List Selected) (droot : Path) :
    (transferPlan sel droot).length = (collectAllFiles sel).length := by
  simp [transferPlan]

theorem copyFiles_run (sel : List Selected) (droot : Path) (fs : FS)
    (hne : sel ≠ []) :
    copyFiles sel (some droot) fs =
      ⟨(copyLoop (collectAllFiles sel).length fs 1
          (transferPlan sel droot)).fs, false,
       (copyLoop (collectAllFiles sel).length fs 1
         (transferPlan sel droot)).events,
       (0, ((collectAllFiles sel).length : ℚ)) ::
         (copyLoop (collectAllFiles sel).length fs 1
           (transferPlan sel droot)).calls,
       (copyLoop (collectAllFiles sel).length fs 1
         (transferPlan sel droot)).abortedAt⟩ := by
  have h : sel.isEmpty = false := by
    cases sel with
    | nil => exact absurd rfl hne
    | cons s sel' => rfl
  simp only [copyFiles, h, Bool.false_eq_true, if_false]

theorem moveFiles_run (uk : Path → Bool) (sel : List Selected)
    (droot : Path) (fs : FS) (hne : sel ≠ []) :
    moveFiles uk sel (some droot) fs =
      ⟨(moveLoop uk (collectAllFiles sel).length fs 1
          (transferPlan sel droot)).fs, false,
       (moveLoop uk (collectAllFiles sel).length fs 1
         (transferPlan sel droot)).events,
       (0, ((collectAllFiles sel).length : ℚ)) ::
         (moveLoop uk (collectAllFiles sel).length fs 1
           (transferPlan sel droot)).calls,
       (moveLoop uk (collectAllFiles sel).length fs 1
         (transferPlan sel droot)).abortedAt⟩ := by
  have h : sel.isEmpty = false := by
    cases sel with
    | nil => exact absurd rfl hne
    | cons s sel' => rfl
  simp only [moveFiles, h, Bool.false_eq_true, if_false]

/-- Core invariant of `_move_files`: a plan entry whose source was
successfully unlinked was first copied to its destination; afterwards the
source is gone and the destination holds exactly the bytes the source had
when it was read (which, with distinct sources, distinct destinations and
no source ever used as a destination, is its content at the start of the
loop). -/
theorem moveLoop_moved (uk : Path → Bool) (n : Nat)
    (plan : List (Path × Path)) :
    ∀ (fs : FS) (i : Nat) (src dst : Path),
    (src, dst) ∈ plan →
    (plan.map Prod.fst).Nodup →
    (plan.map Prod.snd).Nodup →
    (∀ e ∈ plan, ∀ e' ∈ plan, e.1 ≠ e'.2) →
    TEvent.removed src ∈ (moveLoop uk n fs i plan).events →
    TEvent.copied src dst ∈ (moveLoop uk n fs i plan).events ∧
    (moveLoop uk n fs i plan).fs src = none ∧
    (moveLoop uk n fs i plan).fs dst = fs src ∧ fs src ≠ none := by
  induction plan with
  | nil => intro fs i src dst hmem; simp at hmem
  | cons e rest ih =>
    intro fs i src dst hmem hS hD hdisj hrem
    obtain ⟨s, d⟩ := e
    have hsfst : s ∉ rest.map Prod.fst := by
      simp only [List.map_cons, List.nodup_cons] at hS
      exact hS.1
    have hdsnd : d ∉ rest.map Prod.snd := by
      simp only [List.map_cons, List.nodup_cons] at hD
      exact hD.1
    have hSr : (rest.map Prod.fst).Nodup := by
      simp only [List.map_cons, List.nodup_cons] at hS
      exact hS.2
    have hDr : (rest.map Prod.snd).Nodup := by
      simp only [List.map_cons, List.nodup_cons] at hD
      exact hD.2
    have hdisjr : ∀ e ∈ rest, ∀ e' ∈ rest, e.1 ≠ e'.2 :=
      fun e he e' he' => hdisj e (by simp [he]) e' (by simp [he'])
    have hsd : s ≠ d := hdisj (s, d) (by simp) (s, d) (by simp)
    match hsrc : fs s with
    | none =>
      rw [moveLoop_cons_fail uk n fs i s d rest hsrc] at hrem
      simp at hrem
    | some c =>
      cases huk : uk s with
      | true =>
        rw [moveLoop_cons_unlink uk n fs i s d rest c hsrc huk,
          copyWithProgress_written] at hrem ⊢
        by_cases hss : src = s
        · subst hss
          have hdd : dst = d := by
            rcases List.mem_cons.1 hmem with h | h
            · exact (Prod.mk.injEq .. ▸ h).2
            · exact absurd (List.mem_map.2 ⟨(src, dst), h, rfl⟩) hsfst
          subst hdd
          refine ⟨by simp, ?_, ?_, by simp [hsrc]⟩
          · rw [moveLoop_preserves uk n rest _ _ src
              (fun e he => fun h => hsfst (h ▸ List.mem_map.2 ⟨e, he, rfl⟩))
              (fun e he => fun h =>
                hdisj (src, dst) (by simp) e (by simp [he]) h.symm)]
            rw [FS.erase_self]
          · rw [moveLoop_preserves uk n rest _ _ dst
              (fun e he => fun h =>
                hdisj e (by simp [he]) (src, dst) (by simp) h)
              (fun e he => fun h => hdsnd (h ▸ List.mem_map.2 ⟨e, he, rfl⟩))]
            rw [FS.erase_other _ _ (Ne.symm hsd), FS.write_self, hsrc]
        · have hmem' : (src, dst) ∈ rest := by
            rcases List.mem_cons.1 hmem with h | h
            · exact absurd (Prod.mk.injEq .. ▸ h).1 hss
            · exact h
          have hrem' : TEvent.removed src ∈
              (moveLoop uk n ((fs.write d c).erase s) (i + 1) rest).events := by
            simp only [List.mem_cons] at hrem
            rcases hrem with h | h | h
            · simp at h
            · simp at h; exact absurd h hss
            · exact h
          have hsrcd : src ≠ d :=
            hdisj (src, dst) (by simp [hmem']) (s, d) (by simp)
          obtain ⟨h1, h2, h3, h4⟩ :=
            ih ((fs.write d c).erase s) (i + 1) src dst hmem' hSr hDr hdisjr
              hrem'
          have hfs2 : ((fs.write d c).erase s) src = fs src := by
            rw [FS.erase_other _ _ hss, FS.write_other _ _ _ hsrcd]
          refine ⟨by simp [h1], h2, ?_, ?_⟩
          · rw [h3, hfs2]
          · rw [← hfs2]; exact h4
      | false =>
        rw [moveLoop_cons_nounlink uk n fs i s d rest c hsrc huk,
          copyWithProgress_written] at hrem ⊢
        by_cases hss : src = s
        · subst hss
          have : src ∈ rest.map Prod.fst := by
            apply moveLoop_removed_mem uk n rest (fs.write d c) (i + 1) src
            simp only [List.mem_cons] at hrem
            rcases hrem with h | h | h
            · simp at h
            · simp at h
            · exact h
          exact absurd this hsfst
        · have hmem' : (src, dst) ∈ rest := by
            rcases List.mem_cons.1 hmem with h | h
            · exact absurd (Prod.mk.injEq .. ▸ h).1 hss
            · exact h
          have hrem' : TEvent.removed src ∈
              (moveLoop uk n (fs.write d c) (i + 1) rest).events := by
            simp only [List.mem_cons] at hrem
            rcases hrem with h | h | h
            · simp at h
            · simp at h
            · exact h
          have hsrcd : src ≠ d :=
            hdisj (src, dst) (by simp [hmem']) (s, d) (by simp)
          obtain ⟨h1, h2, h3, h4⟩ :=
            ih (fs.write d c) (i + 1) src dst hmem' hSr hDr hdisjr hrem'
          have hfs2 : (fs.write d c) src = fs src :=
            FS.write_other _ _ _ hsrcd
          refine ⟨by simp [h1], h2, ?_, ?_⟩
          · rw [h3, hfs2]
          · rw [← hfs2]; exact h4

theorem resetProgress_eq (st : ProgressState) :
    resetProgress st = ⟨0, max 1 st.maximum⟩ := by
  have h0 : (0 : ℚ) ≤ max 1 st.maximum :=
    le_trans zero_le_one (le_max_left 1 st.maximum)
  simp [resetProgress, setProgress, min_eq_left h0]

/-! ## Claims -/

/-- C9: after every individual `_set_progress` update, the stored current
value (`progress["value"]`) never exceeds the stored total value
(`progress["maximum"]`): the update clamps the maximum to at least 1 and
the value into `[0, maximum]`. -/
theorem progress_current_le_total (st : ProgressState) (v m : ℚ) :
    (setProgress st v m).value ≤ (setProgress st v m).maximum := by
  show max 0 (min v (max 1 m)) ≤ max 1 m
  exact max_le (le_trans zero_le_one (le_max_left 1 m)) (min_le_right v _)

/-- C6: a Copy or Move action with an empty selection or an unset
destination directory is rejected (the dialog branch returns early): the
filesystem is unchanged, no file is enumerated or copied or deleted, no
event is produced, no progress call is made, and nothing aborts. -/
theorem precondition_rejects (uk : Path → Bool) (sel : List Selected)
    (dstDir : Option Path) (fs : FS) (h : sel = [] ∨ dstDir = none) :
    copyFiles sel dstDir fs = ⟨fs, true, [], [], none⟩ ∧
    moveFiles uk sel dstDir fs = ⟨fs, true, [], [], none⟩ := by
  rcases h with h | h
  · subst h
    cases dstDir with
    | none => exact ⟨rfl, rfl⟩
    | some d => exact ⟨rfl, rfl⟩
  · subst h
    exact ⟨rfl, rfl⟩

theorem precondition_rejects_witness :
    (([] : List Selected) = [] ∨ (some ["d"] : Option Path) = none) ∧
    copyFiles [] (some ["d"]) (fun _ => none) =
      ⟨fun _ => none, true, [], [], none⟩ ∧
    moveFiles (fun _ => true) [] (some ["d"]) (fun _ => none) =
      ⟨fun _ => none, true, [], [], none⟩ :=
  ⟨Or.inl rfl,
   (precondition_rejects (fun _ => true) [] (some ["d"]) (fun _ => none)
     (Or.inl rfl)).1,
   (precondition_rejects (fun _ => true) [] (some ["d"]) (fun _ => none)
     (Or.inl rfl)).2⟩

/-- C7 counterexample: for a zero-length source the single progress
callback reports `(file_index, total_files)` — here file 1 of 2 — and not
0 of 0 bytes. -/
theorem zero_length_single_call_cex :
    (copyWithProgress [] 1 2).calls = [((1 : ℚ), (2 : ℚ))] ∧
    (copyWithProgress [] 1 2).calls ≠ [((0 : ℚ), (0 : ℚ))] := by
  rw [copyWithProgress_nil]
  refine ⟨rfl, ?_⟩
  simp

/-- C7 (amended): for every zero-length source file the chunk loop makes
no per-chunk call, so the progress callback is invoked exactly once for
that file — the final `(file_index, total_files)` call, which reports the
file as complete — and the destination receives zero bytes. -/
theorem zero_length_single_call (i n : Nat) :
    (copyWithProgress [] i n).calls = [((i : ℚ), (n : ℚ))] ∧
    (copyWithProgress [] i n).written = [] := by
  rw [copyWithProgress_nil]
  exact ⟨rfl, rfl⟩

/-- C10: copying a single file onto a destination path that already holds
a regular file overwrites it without any error or confirmation branch:
opening with mode `"wb"` truncates it, and after the copy the destination
holds exactly the source's bytes, regardless of its prior content. -/
theorem copy_overwrites_destination (fs : FS) (src dst : Path)
    (c d : Bytes) (i n : Nat) (hs : fs src = some c)
    (hd : fs dst = some d) :
    (copyLoop n fs i [(src, dst)]).fs dst = some c ∧
    (copyWithProgress c i n).written = c := by
  refine ⟨?_, copyWithProgress_written c i n⟩
  rw [copyLoop_cons_ok n fs i src dst [] c hs]
  show (copyLoop n (fs.write dst (copyWithProgress c i n).written)
    (i + 1) []).fs dst = some c
  rw [copyLoop_nil]
  show (fs.write dst (copyWithProgress c i n).written) dst = some c
  rw [copyWithProgress_written]
  exact FS.write_self fs dst c

theorem copy_overwrites_destination_witness :
    fsW10 ["s", "a"] = some [1, 2] ∧ fsW10 ["d", "a"] = some [9] ∧
    ((copyLoop 1 fsW10 1 [(["s", "a"], ["d", "a"])]).fs ["d", "a"] =
        some [1, 2] ∧
      (copyWithProgress [1, 2] 1 1).written = [1, 2]) :=
  ⟨by decide, by decide,
   copy_overwrites_destination fsW10 ["s", "a"] ["d", "a"] [1, 2] [9] 1 1
     (by decide) (by decide)⟩

/-- C1 counterexample: with a two-entry plan whose first copy fails with
an I/O error, the loop returns immediately: no `{path, reason}` record is
made (no events at all), and the second entry — whose source exists and
would copy fine — is never attempted (its destination is never written).
This refutes "the orchestrator records the failure and continues; the
other n-1 entries are still attempted". -/
theorem copy_error_isolation_cex :
    copyLoop 2 fsC1 1 [(["s", "a"], ["d", "a"]), (["s", "b"], ["d", "b"])] =
      ⟨fsC1, [], [], some ["s", "a"]⟩ ∧
    fsC1 ["s", "b"] = some [5] ∧
    (copyLoop 2 fsC1 1
      [(["s", "a"], ["d", "a"]), (["s", "b"], ["d", "b"])]).fs ["d", "b"] =
      none := by
  have h : fsC1 ["s", "a"] = none := by decide
  have he := copyLoop_cons_fail 2 fsC1 1 ["s", "a"] ["d", "a"]
    [(["s", "b"], ["d", "b"])] h
  refine ⟨he, by decide, ?_⟩
  rw [he]
  decide

/-- C1 (amended): an I/O failure on one entry's copy is uncaught and
aborts the batch at that entry: the loop returns with no event, no
progress call and no failure record, and the remaining entries are not
attempted — in both `_copy_files` and `_move_files`. Only a Move
deletion (`unlink`) failure is caught: it is reported and the loop
continues with the next entry. -/
theorem copy_error_aborts_batch (uk : Path → Bool) (n i : Nat)
    (fs fs' : FS) (src dst : Path) (rest : List (Path × Path)) (c : Bytes)
    (hfail : fs src = none) (hcopy : fs' src = some c)
    (hunl : uk src = false) :
    copyLoop n fs i ((src, dst) :: rest) = ⟨fs, [], [], some src⟩ ∧
    moveLoop uk n fs i ((src, dst) :: rest) = ⟨fs, [], [], some src⟩ ∧
    (moveLoop uk n fs' i ((src, dst) :: rest)).abortedAt =
      (moveLoop uk n (fs'.write dst c) (i + 1) rest).abortedAt ∧
    (moveLoop uk n fs' i ((src, dst) :: rest)).events =
      .copied src dst :: .removeFailed src ::
        (moveLoop uk n (fs'.write dst c) (i + 1) rest).events := by
  refine ⟨copyLoop_cons_fail n fs i src dst rest hfail,
    moveLoop_cons_fail uk n fs i src dst rest hfail, ?_, ?_⟩
  · rw [moveLoop_cons_nounlink uk n fs' i src dst rest c hcopy hunl,
      copyWithProgress_written]
  · rw [moveLoop_cons_nounlink uk n fs' i src dst rest c hcopy hunl,
      copyWithProgress_written]

theorem copy_error_aborts_batch_witness :
    ((fun _ => none : FS) ["s", "a"] = none ∧
      fsC1w ["s", "a"] = some [] ∧
      (fun _ => false : Path → Bool) ["s", "a"] = false) ∧
    (copyLoop 1 (fun _ => none) 1 [(["s", "a"], ["d", "a"])] =
        ⟨fun _ => none, [], [], some ["s", "a"]⟩ ∧
      moveLoop (fun _ => false) 1 (fun _ => none) 1
          [(["s", "a"], ["d", "a"])] =
        ⟨fun _ => none, [], [], some ["s", "a"]⟩ ∧
      (moveLoop (fun _ => false) 1 fsC1w 1
          [(["s", "a"], ["d", "a"])]).abortedAt =
        (moveLoop (fun _ => false) 1 (fsC1w.write ["d", "a"] []) 2
          []).abortedAt ∧
      (moveLoop (fun _ => false) 1 fsC1w 1
          [(["s", "a"], ["d", "a"])]).events =
        .copied ["s", "a"] ["d", "a"] :: .removeFailed ["s", "a"] ::
          (moveLoop (fun _ => false) 1 (fsC1w.write ["d", "a"] [])
            2 []).events) :=
  ⟨⟨rfl, by decide, rfl⟩,
   copy_error_aborts_batch (fun _ => false) 1 1 (fun _ => none) fsC1w
     ["s", "a"] ["d", "a"] [] [] rfl (by decide) rfl⟩

/-- C5 counterexample: the plan has 2 entries, but the failing first copy
aborts the run: no entry is recorded as copied and no failure is recorded
either (the code keeps no failed list; its only per-file failure report is
the Move `unlink` dialog), so succeeded + failed.length = 0 ≠ 2 =
plan.length. -/
theorem outcome_invariant_cex :
    (planRel selC5).length = 2 ∧
    (copyFiles selC5 (some ["d"]) fsC5).abortedAt = some ["s", "a"] ∧
    countCopied (copyFiles selC5 (some ["d"]) fsC5).events +
      countRemoveFailed (copyFiles selC5 (some ["d"]) fsC5).events = 0 := by
  have hne : selC5 ≠ [] := by simp [selC5]
  have hp : transferPlan selC5 ["d"] =
      [(["s", "a"], ["d", "a"]), (["s", "b"], ["d", "b"])] := by decide
  have hfail : fsC5 ["s", "a"] = none := by decide
  have hrun := copyFiles_run selC5 ["d"] fsC5 hne
  rw [hp, copyLoop_cons_fail _ _ _ _ _ _ hfail] at hrun
  refine ⟨by decide, ?_, ?_⟩
  · rw [hrun]
  · rw [hrun]
    rfl

/-- C5 (amended): the code builds no `TransferOutcome` and keeps no
failed list. What holds is the accounting of the runs themselves: when no
copy fails, a Copy run produces exactly one `copied` event per plan entry,
and a Move run produces exactly one `removed` or `removeFailed` (unlink
dialog) event per plan entry, so those counts sum to `plan.length`; when a
copy fails the run aborts and the counts fall short. -/
theorem outcome_counts_no_failure (uk : Path → Bool) (sel : List Selected)
    (droot : Path) (fs fs2 : FS) (hne : sel ≠ [])
    (hc : (copyFiles sel (some droot) fs).abortedAt = none)
    (hm : (moveFiles uk sel (some droot) fs2).abortedAt = none) :
    countCopied (copyFiles sel (some droot) fs).events =
      (planRel sel).length ∧
    countRemoved (moveFiles uk sel (some droot) fs2).events +
      countRemoveFailed (moveFiles uk sel (some droot) fs2).events =
      (planRel sel).length := by
  rw [copyFiles_run sel droot fs hne] at hc ⊢
  rw [moveFiles_run uk sel droot fs2 hne] at hm ⊢
  rw [planRel_length]
  constructor
  · rw [copyLoop_count _ _ _ _ hc, transferPlan_length]
  · rw [moveLoop_count _ _ _ _ _ hm, transferPlan_length]

theorem transferPlan_selW :
    transferPlan selW ["d"] = [(["s", "a"], ["d", "a"])] := by decide

theorem copyFiles_selW_eval :
    copyFiles selW (some ["d"]) fsW =
      ⟨fsW.write ["d", "a"] [], false, [.copied ["s", "a"] ["d", "a"]],
       [((0 : ℚ), (1 : ℚ)), ((1 : ℚ), (1 : ℚ))], none⟩ := by
  rw [copyFiles_run selW ["d"] fsW (by simp [selW]), transferPlan_selW,
    copyLoop_cons_ok _ _ _ _ _ _ _ (by decide : fsW ["s", "a"] = some []),
    copyWithProgress_nil, copyLoop_nil]
  rfl

theorem moveFiles_selW_eval :
    moveFiles (fun _ => false) selW (some ["d"]) fsW =
      ⟨fsW.write ["d", "a"] [], false,
       [.copied ["s", "a"] ["d", "a"], .removeFailed ["s", "a"]],
       [((0 : ℚ), (1 : ℚ)), ((1 : ℚ), (1 : ℚ))], none⟩ := by
  rw [moveFiles_run (fun _ => false) selW ["d"] fsW (by simp [selW]),
    transferPlan_selW,
    moveLoop_cons_nounlink _ _ _ _ _ _ _ _
      (by decide : fsW ["s", "a"] = some []) rfl,
    copyWithProgress_nil, moveLoop_nil]
  rfl

theorem moveFiles_selW_unlink_eval :
    moveFiles (fun _ => true) selW (some ["d"]) fsW =
      ⟨(fsW.write ["d", "a"] []).erase ["s", "a"], false,
       [.copied ["s", "a"] ["d", "a"], .removed ["s", "a"]],
       [((0 : ℚ), (1 : ℚ)), ((1 : ℚ), (1 : ℚ))], none⟩ := by
  rw [moveFiles_run (fun _ => true) selW ["d"] fsW (by simp [selW]),
    transferPlan_selW,
    moveLoop_cons_unlink _ _ _ _ _ _ _ _
      (by decide : fsW ["s", "a"] = some []) rfl,
    copyWithProgress_nil, moveLoop_nil]
  rfl

theorem outcome_counts_no_failure_witness :
    (selW ≠ [] ∧
      (copyFiles selW (some ["d"]) fsW).abortedAt = none ∧
      (moveFiles (fun _ => false) selW (some ["d"]) fsW).abortedAt = none) ∧
    (countCopied (copyFiles selW (some ["d"]) fsW).events =
        (planRel selW).length ∧
      countRemoved (moveFiles (fun _ => false) selW
          (some ["d"]) fsW).events +
        countRemoveFailed (moveFiles (fun _ => false) selW
          (some ["d"]) fsW).events = (planRel selW).length) :=
  ⟨⟨by simp [selW], by rw [copyFiles_selW_eval], by rw [moveFiles_selW_eval]⟩,
   outcome_counts_no_failure (fun _ => false) selW ["d"] fsW fsW
     (by simp [selW]) (by rw [copyFiles_selW_eval])
     (by rw [moveFiles_selW_eval])⟩

/-- C2: for every processed Move plan entry whose chunked copy succeeded
and whose source deletion succeeded, after the operation the source path
no longer exists and the destination path (`destinationRoot / relativePath`
as paired by the plan) holds bytes identical to the source's content when
it was read — the content at the start of the run, given that plan sources
are distinct, destinations are distinct, and no source doubles as a
destination. The move of the entry is witnessed by a per-file `copied`
event followed by removal; the embedded engine has no directory-rename
operation at all. -/
theorem move_copy_delete_semantics (uk : Path → Bool) (sel : List Selected)
    (droot : Path) (fs : FS) (src dst : Path) (hne : sel ≠ [])
    (hmem : (src, dst) ∈ transferPlan sel droot)
    (hS : ((transferPlan sel droot).map Prod.fst).Nodup)
    (hD : ((transferPlan sel droot).map Prod.snd).Nodup)
    (hdisj : ∀ e ∈ transferPlan sel droot, ∀ e' ∈ transferPlan sel droot,
      e.1 ≠ e'.2)
    (hrem : TEvent.removed src ∈ (moveFiles uk sel (some droot) fs).events) :
    TEvent.copied src dst ∈ (moveFiles uk sel (some droot) fs).events ∧
    (moveFiles uk sel (some droot) fs).fs src = none ∧
    (moveFiles uk sel (some droot) fs).fs dst = fs src ∧ fs src ≠ none := by
  rw [moveFiles_run uk sel droot fs hne] at hrem ⊢
  exact moveLoop_moved uk (collectAllFiles sel).length
    (transferPlan sel droot) fs 1 src dst hmem hS hD hdisj hrem

theorem move_copy_delete_semantics_witness :
    (selW ≠ [] ∧ (["s", "a"], ["d", "a"]) ∈ transferPlan selW ["d"] ∧
      TEvent.removed ["s", "a"] ∈
        (moveFiles (fun _ => true) selW (some ["d"]) fsW).events) ∧
    (TEvent.copied ["s", "a"] ["d", "a"] ∈
        (moveFiles (fun _ => true) selW (some ["d"]) fsW).events ∧
      (moveFiles (fun _ => true) selW (some ["d"]) fsW).fs ["s", "a"] =
        none ∧
      (moveFiles (fun _ => true) selW (some ["d"]) fsW).fs ["d", "a"] =
        fsW ["s", "a"] ∧ fsW ["s", "a"] ≠ none) :=
  ⟨⟨by simp [selW], by rw [transferPlan_selW]; simp,
    by rw [moveFiles_selW_unlink_eval]; simp⟩,
   move_copy_delete_semantics (fun _ => true) selW ["d"] fsW
     ["s", "a"] ["d", "a"] (by simp [selW])
     (by rw [transferPlan_selW]; simp)
     (by rw [transferPlan_selW]; decide)
     (by rw [transferPlan_selW]; decide)
     (by rw [transferPlan_selW]; decide)
     (by rw [moveFiles_selW_unlink_eval]; simp)⟩

/-- C3: the relative-path rule of the orchestration loops. If the
selection is exactly one directory, every enumerated file's relative path
is its path relative to that directory's parent, so it starts with the
directory's own name — the top-level folder name is recreated under the
destination root. In every other case (no directory selected, or at least
two selected entries) the relative path is just the file's base name. -/
theorem relative_path_rule :
    (∀ (par : Path) (nm : String) (cs : List FsEntry) (p : Path)
      (c : Bytes),
      (p, c) ∈ collectAllFiles [⟨par, .dir nm cs⟩] →
      ∃ rel, p = par ++ nm :: rel ∧
        relPath [⟨par, .dir nm cs⟩] p = nm :: rel) ∧
    (∀ (sel : List Selected) (p : Path),
      ((∀ s ∈ sel, s.isDir = false) ∨ 2 ≤ sel.length) →
      relPath sel p = [baseName p]) := by
  constructor
  · intro par nm cs p c hm
    obtain ⟨s, hs, rel, hrf, hp⟩ := (collectAllFiles_mem_iff _ p c).1 hm
    rw [List.mem_singleton] at hs
    subst hs
    cases hrf with
    | dir _ he hrf' =>
      refine ⟨_, hp, ?_⟩
      show p.drop par.length = _
      rw [hp, List.drop_left]
  · intro sel p h
    exact relPath_flat sel h p

theorem relative_path_rule_witness :
    (∃ rel, (["r", "Foo", "x"] : Path) = ["r"] ++ "Foo" :: rel ∧
      relPath [⟨["r"], .dir "Foo" [.file "x" [7]]⟩] ["r", "Foo", "x"] =
        "Foo" :: rel) ∧
    relPath [⟨["r"], .file "x" [7]⟩] ["r", "x"] = [baseName ["r", "x"]] :=
  ⟨relative_path_rule.1 ["r"] "Foo" [.file "x" [7]] ["r", "Foo", "x"] [7]
     (by decide),
   relative_path_rule.2 [⟨["r"], .file "x" [7]⟩] ["r", "x"]
     (Or.inl (by decide))⟩

/-- C4: `_collect_all_files` produces exactly the regular files reachable
under the selected entries (a row is in the plan iff some selected entry's
subtree reaches that file) — directories themselves never appear, as only
`file` leaves are reachable. In particular, for a non-empty selection of
plain files, the plan has exactly one row per selected file and each row's
relative path is the file's base name. -/
theorem enumeration_exact :
    (∀ (sel : List Selected) (p : Path) (c : Bytes),
      (p, c) ∈ collectAllFiles sel ↔
        ∃ s ∈ sel, ∃ rel, ReachesFile s.entry rel c ∧ p = s.parent ++ rel) ∧
    (∀ sel : List Selected, sel ≠ [] → (∀ s ∈ sel, s.isDir = false) →
      (collectAllFiles sel).length = sel.length ∧
      ∀ pc ∈ collectAllFiles sel, relPath sel pc.1 = [baseName pc.1]) := by
  constructor
  · exact collectAllFiles_mem_iff
  · intro sel _ h
    exact ⟨(collectAllFiles_flat sel h).1,
      fun pc _ => relPath_flat sel (Or.inl h) pc.1⟩

theorem enumeration_exact_witness :
    ((["r", "f"], ([7] : Bytes)) ∈ collectAllFiles selW4 ↔
      ∃ s ∈ selW4, ∃ rel, ReachesFile s.entry rel [7] ∧
        ["r", "f"] = s.parent ++ rel) ∧
    (collectAllFiles selW4).length = selW4.length ∧
    relPath selW4 ["r", "f"] = [baseName ["r", "f"]] :=
  ⟨enumeration_exact.1 selW4 ["r", "f"] [7],
   (enumeration_exact.2 selW4 (by simp [selW4]) (by decide)).1,
   (enumeration_exact.2 selW4 (by simp [selW4]) (by decide)).2
     (["r", "f"], [7]) (by decide)⟩

/-- C8 counterexample: the progress pair is never `{0,0}`.
`_set_progress(0, n)` clamps the stored maximum to `max(1, n)`, so at the
start of a one-file transfer the pair is `{0,1}`, and after the final
`_reset_progress()` it is `{0,1}` again — not `{0,0}` at either moment. -/
theorem progress_reset_cex :
    (copyFiles selW (some ["d"]) fsW).calls.take 1 =
      [((0 : ℚ), (1 : ℚ))] ∧
    setProgress ⟨0, 0⟩ 0 1 = ⟨0, 1⟩ ∧
    transferProgress ⟨0, 0⟩ (copyFiles selW (some ["d"]) fsW) = ⟨0, 1⟩ ∧
    (⟨0, 1⟩ : ProgressState) ≠ ⟨0, 0⟩ := by
  rw [copyFiles_selW_eval]
  refine ⟨rfl, by decide, ?_, by decide⟩
  show resetProgress (applyCalls ⟨0, 0⟩
    [((0 : ℚ), (1 : ℚ)), ((1 : ℚ), (1 : ℚ))]) = ⟨0, 1⟩
  rw [applyCalls_cons, applyCalls_cons, applyCalls_nil, resetProgress_eq]
  decide

/-- C8 (amended): at the start of a transfer the destination pane's
progress is set by `_set_progress(0, plan.length)` — current 0, total
clamped to `max(1, plan.length)` — and after the last entry
`_reset_progress()` leaves `{0, max(1, plan.length)}` again. The current
component is 0 at both moments, but the pair is never `{0,0}`: the stored
total is always at least 1. -/
theorem progress_reset_bounds (uk : Path → Bool) (sel : List Selected)
    (droot : Path) (fs fs2 : FS) (st0 st1 : ProgressState)
    (hne : sel ≠ [])
    (hc : (copyFiles sel (some droot) fs).abortedAt = none)
    (hm : (moveFiles uk sel (some droot) fs2).abortedAt = none) :
    (copyFiles sel (some droot) fs).calls.take 1 =
      [((0 : ℚ), ((collectAllFiles sel).length : ℚ))] ∧
    transferProgress st0 (copyFiles sel (some droot) fs) =
      ⟨0, max 1 ((collectAllFiles sel).length : ℚ)⟩ ∧
    transferProgress st1 (moveFiles uk sel (some droot) fs2) =
      ⟨0, max 1 ((collectAllFiles sel).length : ℚ)⟩ ∧
    (1 : ℚ) ≤ max 1 ((collectAllFiles sel).length : ℚ) := by
  rw [copyFiles_run sel droot fs hne] at hc ⊢
  rw [moveFiles_run uk sel droot fs2 hne] at hm ⊢
  dsimp only at hc hm
  refine ⟨rfl, ?_, ?_, le_max_left 1 _⟩
  · simp only [transferProgress, hc, Option.isSome_none, Bool.or_false,
      Bool.false_eq_true, if_false]
    rw [resetProgress_eq]
    have hall : ∀ call ∈ ((0 : ℚ), ((collectAllFiles sel).length : ℚ)) ::
        (copyLoop (collectAllFiles sel).length fs 1
          (transferPlan sel droot)).calls, call.2 =
        ((collectAllFiles sel).length : ℚ) := by
      intro call hcall
      rcases List.mem_cons.1 hcall with h | h
      · rw [h]
      · exact copyLoop_calls_snd _ _ _ _ call h
    rw [applyCalls_maximum st0 _ _ hall (by simp), ← max_assoc, max_self]
  · simp only [transferProgress, hm, Option.isSome_none, Bool.or_false,
      Bool.false_eq_true, if_false]
    rw [resetProgress_eq]
    have hall : ∀ call ∈ ((0 : ℚ), ((collectAllFiles sel).length : ℚ)) ::
        (moveLoop uk (collectAllFiles sel).length fs2 1
          (transferPlan sel droot)).calls, call.2 =
        ((collectAllFiles sel).length : ℚ) := by
      intro call hcall
      rcases List.mem_cons.1 hcall with h | h
      · rw [h]
      · exact moveLoop_calls_snd _ _ _ _ _ call h
    rw [applyCalls_maximum st1 _ _ hall (by simp), ← max_assoc, max_self]

theorem progress_reset_bounds_witness :
    (selW ≠ [] ∧
      (copyFiles selW (some ["d"]) fsW).abortedAt = none ∧
      (moveFiles (fun _ => false) selW (some ["d"]) fsW).abortedAt =
        none) ∧
    ((copyFiles selW (some ["d"]) fsW).calls.take 1 =
        [((0 : ℚ), ((collectAllFiles selW).length : ℚ))] ∧
      transferProgress ⟨0, 0⟩ (copyFiles selW (some ["d"]) fsW) =
        ⟨0, max 1 ((collectAllFiles selW).length : ℚ)⟩ ∧
      transferProgress ⟨0, 0⟩ (moveFiles (fun _ => false) selW
          (some ["d"]) fsW) =
        ⟨0, max 1 ((collectAllFiles selW).length : ℚ)⟩ ∧
      (1 : ℚ) ≤ max 1 ((collectAllFiles selW).length : ℚ)) :=
  ⟨⟨by simp [selW], by rw [copyFiles_selW_eval], by rw [moveFiles_selW_eval]⟩,
   progress_reset_bounds (fun _ => false) selW ["d"] fsW fsW ⟨0, 0⟩ ⟨0, 0⟩
     (by simp [selW]) (by rw [copyFiles_selW_eval])
     (by rw [moveFiles_selW_eval])⟩

end FileMgmt
